import Mathlib

/-! ## Buildkite agent API: job field canonicalisation and request shapes

A shallow embedding of `api/jobs.go` and `api/oidc.go`.

* Go strings are embedded as Lean `String`s (valid UTF-8 text, on which Go's
  byte-wise prefix test and Lean's character-wise one agree).
* A Go `map[string]string` is embedded as a `Finmap`: finite, unique keys, and
  no order among its entries.  A nil map is `none`.
* Go's multiple return values are embedded as tuples/structures of options,
  `none` standing for `nil`.
* Code that lives outside the embedded files (`pipeline.Plugins` and its JSON
  encoding, `pipeline.EnvNamespacePrefix`, `Client.newRequest`,
  `Client.doRequest`) is taken as a parameter.  For the plugins codec there is
  in addition a reference implementation over a subset of JSON, written from
  the prose description of the canonicalisation, on which the statement about
  key order is proved and the concrete runs are evaluated.
-/

namespace Buildkite

/-! ## Go maps and strings -/

/-- A non-nil Go `map[string]string`. -/
abbrev StringMap : Type := Finmap (fun _ : String => String)

/-- The Go index expression `m[k]` on a `map[string]string` that may be nil:
the stored value, or the zero value `""` when the map is nil or has no such key. -/
def mapIndex (m : Option StringMap) (k : String) : String :=
  match m with
  | none => ""
  | some m => (m.lookup k).getD ""

/-- Go `strings.HasPrefix(s, prefix)`:
`len(s) >= len(prefix) && s[:len(prefix)] == prefix`. -/
def HasPrefix (s pre : String) : Bool :=
  decide (pre.data.length ≤ s.data.length) && (s.data.take pre.data.length == pre.data)

/-- Go `strings.CutPrefix(s, prefix)`: `(s, false)` when `s` does not start with
`prefix`, otherwise `(s[len(prefix):], true)`. -/
def CutPrefix (s pre : String) : String × Bool :=
  if HasPrefix s pre then (String.mk (s.data.drop pre.data.length), true) else (s, false)

/-! ## Jobs -/

/-- The Go struct `api.Job`.  `CommandStep` stands for `pipeline.CommandStep`;
the `uint64` and `int` fields are never computed with and are embedded as
`Nat` and `Int`. -/
structure Job (CommandStep : Type) where
  ID : String
  Endpoint : String
  State : String
  Env : Option StringMap
  Step : CommandStep
  ChunksMaxSizeBytes : Nat
  LogMaxSizeBytes : Nat
  Token : String
  ExitStatus : String
  Signal : String
  SignalReason : String
  StartedAt : String
  FinishedAt : String
  RunnableAt : String
  ChunksFailedCount : Int

/-- The two JSON operations `ValuesForFields` applies to `pipeline.Plugins`:
`json.Unmarshal([]byte(s), &ps)` and `json.Marshal(ps)`. -/
structure PluginsCodec (Plugins E : Type) where
  Unmarshal : String → Except E Plugins
  Marshal : Plugins → Except E String

/-- The errors `ValuesForFields` returns, one constructor per `fmt.Errorf` call.
The first two wrap (`%w`) the error of the failing JSON stage. -/
inductive JobError (E : Type) where
  | unmarshaling (err : E)
  | remarshaling (err : E)
  | unsupportedField (f : String)
  deriving DecidableEq, Repr

/-- The message of a `JobError` (`Error()`), given the message of a wrapped
error and Go's `%q` quoting. -/
def JobError.Error {E : Type} (msg : E → String) (quote : String → String) :
    JobError E → String
  | .unmarshaling err => "unmarshaling BUIDLKITE_PLUGINS: " ++ msg err
  | .remarshaling err => "re-marshaling BUIDLKITE_PLUGINS: " ++ msg err
  | .unsupportedField f =>
    "unknown or unsupported field on Job struct for signing/verification: " ++ quote f

/-- The error a `JobError` wraps (`errors.Unwrap`). -/
def JobError.Unwrap {E : Type} : JobError E → Option E
  | .unmarshaling err => some err
  | .remarshaling err => some err
  | .unsupportedField _ => none

/-- The body of the `for _, f := range fields` loop of `Job.ValuesForFields`,
started with the output map `o` built so far. -/
def ValuesForFields.loop {S P E : Type} (codec : PluginsCodec P E)
    (EnvNamespacePrefix : String) (j : Job S) :
    StringMap → List String → Option StringMap × Option (JobError E)
  | o, [] => (some o, none)
  | o, f :: rest =>
    if f = "command" then
      ValuesForFields.loop codec EnvNamespacePrefix j
        (o.insert f (mapIndex j.Env "BUILDKITE_COMMAND")) rest
    else if f = "plugins" then
      if mapIndex j.Env "BUILDKITE_PLUGINS" = "" then
        ValuesForFields.loop codec EnvNamespacePrefix j (o.insert f "") rest
      else
        match codec.Unmarshal (mapIndex j.Env "BUILDKITE_PLUGINS") with
        | .error err => (none, some (.unmarshaling err))
        | .ok ps =>
          match codec.Marshal ps with
          | .error err => (none, some (.remarshaling err))
          | .ok normalised =>
            ValuesForFields.loop codec EnvNamespacePrefix j (o.insert f normalised) rest
    else
      match CutPrefix f EnvNamespacePrefix with
      | (e, true) =>
        ValuesForFields.loop codec EnvNamespacePrefix j (o.insert f (mapIndex j.Env e)) rest
      | (_, false) => (none, some (.unsupportedField f))

/-- Go `(j *Job) ValuesForFields(fields []string) (map[string]string, error)`:
`o := make(map[string]string, len(fields))`, then the loop, then `return o, nil`. -/
def Job.ValuesForFields {S P E : Type} (codec : PluginsCodec P E)
    (EnvNamespacePrefix : String) (j : Job S) (fields : List String) :
    Option StringMap × Option (JobError E) :=
  ValuesForFields.loop codec EnvNamespacePrefix j ∅ fields

/-- A field name the `switch` of `ValuesForFields` has a case for: `command`,
`plugins`, or a name starting with the namespace prefix. -/
def supportedField (EnvNamespacePrefix f : String) : Prop :=
  f = "command" ∨ f = "plugins" ∨ HasPrefix f EnvNamespacePrefix = true

instance (EnvNamespacePrefix f : String) : Decidable (supportedField EnvNamespacePrefix f) := by
  unfold supportedField; infer_instance

/-! ## Requests to the agent API -/

/-- Go `jobStartRequest`. -/
structure jobStartRequest where
  StartedAt : String
  deriving DecidableEq, Repr

/-- Go `jobFinishRequest`. -/
structure jobFinishRequest where
  ExitStatus : String
  Signal : String
  SignalReason : String
  FinishedAt : String
  ChunksFailedCount : Int
  deriving DecidableEq, Repr

/-- Go `oidcTokenRequest`, the type declared inside `Client.OidcToken`. -/
structure oidcTokenRequest where
  Audience : String
  deriving DecidableEq, Repr

/-- Go `OidcToken`. -/
structure OidcToken where
  Token : String
  deriving DecidableEq, Repr

/-- The `body` argument of `newRequest` at the embedded call sites: a pointer to
a start request, a pointer to a finish request, or the `*oidcTokenRequest`
variable `m`, which may be nil (`none`). -/
inductive RequestBody where
  | start (r : jobStartRequest)
  | finish (r : jobFinishRequest)
  | oidc (m : Option oidcTokenRequest)
  deriving DecidableEq, Repr

/-- The two methods of `api.Client` the embedded operations call.  Their code
is outside the embedded files, so each is a function of its arguments.
`ctx` is `none` at the call site in `oidc.go`, which passes no context.
`doRequest req v` returns what `*v` holds afterwards together with the
`(*Response, error)` pair; a nil `v` is embedded as `()`. -/
structure Client (Ctx Header Req Resp E : Type) : Type 1 where
  newRequest : Option Ctx → String → String → RequestBody → List Header → Except E Req
  doRequest : {T : Type} → Req → T → T × Option Resp × Option E

/-- A call made on the client, with its arguments. -/
inductive Call (Ctx Header Req : Type) where
  | newRequest (ctx : Option Ctx) (method urlStr : String) (body : RequestBody)
      (headers : List Header)
  | doRequest (req : Req)
  deriving DecidableEq, Repr

/-- Go `error` values returned by `Client.OidcToken`: the package variable
`ErrAudienceTooLong`, or an error handed back by the client. -/
inductive OidcError (E : Type) where
  | ErrAudienceTooLong
  | client (err : E)
  deriving DecidableEq, Repr

/-- The message of `ErrAudienceTooLong` and of errors passed through. -/
def OidcError.Error {E : Type} (msg : E → String) : OidcError E → String
  | .ErrAudienceTooLong => "the API only supports at most one element in the audience"
  | .client err => msg err

/-- The three return values of `Client.OidcToken`, and the calls it made on the
client, in order. -/
structure OidcTokenResult (Ctx Header Req Resp E : Type) where
  token : Option OidcToken
  resp : Option Resp
  err : Option (OidcError E)
  calls : List (Call Ctx Header Req)

/-- Go `(c *Client) OidcToken(jobId string, audience ...string)`. -/
def Client.OidcToken {Ctx Header Req Resp E : Type} (c : Client Ctx Header Req Resp E)
    (jobId : String) (audience : List String) : OidcTokenResult Ctx Header Req Resp E :=
  -- `switch len(audience)`: `none` is the `default:` case, which returns.
  let m? : Option (Option oidcTokenRequest) :=
    match audience with
    | [] => some none
    | [a] => some (some { Audience := a })
    | _ :: _ :: _ => none
  match m? with
  | none => { token := none, resp := none, err := some .ErrAudienceTooLong, calls := [] }
  | some m =>
    let u := "jobs/" ++ jobId ++ "/oidc/tokens"
    let built : Call Ctx Header Req := .newRequest none "POST" u (.oidc m) []
    match c.newRequest none "POST" u (.oidc m) [] with
    | .error err => { token := none, resp := none, err := some (.client err), calls := [built] }
    | .ok req =>
      match c.doRequest req ({ Token := "" } : Buildkite.OidcToken) with
      | (_, _, some err) =>
        { token := none, resp := none, err := some (.client err),
          calls := [built, .doRequest req] }
      | (t, resp, none) =>
        { token := some t, resp := resp, err := none, calls := [built, .doRequest req] }

/-- The two return values of `StartJob`/`FinishJob`, the calls made on the
client, in order, and the job the `job` pointer refers to afterwards. -/
structure JobCallResult (S Ctx Header Req Resp E : Type) where
  resp : Option Resp
  err : Option E
  calls : List (Call Ctx Header Req)
  job : Job S

/-- Go `(c *Client) StartJob(ctx context.Context, job *Job) (*Response, error)`. -/
def Client.StartJob {S Ctx Header Req Resp E : Type} (c : Client Ctx Header Req Resp E)
    (ctx : Ctx) (job : Job S) : JobCallResult S Ctx Header Req Resp E :=
  let u := "jobs/" ++ job.ID ++ "/start"
  let body := RequestBody.start { StartedAt := job.StartedAt }
  match c.newRequest (some ctx) "PUT" u body [] with
  | .error err =>
    { resp := none, err := some err, calls := [.newRequest (some ctx) "PUT" u body []],
      job := job }
  | .ok req =>
    match c.doRequest req () with
    | (_, resp, err) =>
      { resp := resp, err := err,
        calls := [.newRequest (some ctx) "PUT" u body [], .doRequest req], job := job }

/-- Go `(c *Client) FinishJob(ctx context.Context, job *Job) (*Response, error)`. -/
def Client.FinishJob {S Ctx Header Req Resp E : Type} (c : Client Ctx Header Req Resp E)
    (ctx : Ctx) (job : Job S) : JobCallResult S Ctx Header Req Resp E :=
  let u := "jobs/" ++ job.ID ++ "/finish"
  let body := RequestBody.finish
    { FinishedAt := job.FinishedAt,
      ExitStatus := job.ExitStatus,
      Signal := job.Signal,
      SignalReason := job.SignalReason,
      ChunksFailedCount := job.ChunksFailedCount }
  match c.newRequest (some ctx) "PUT" u body [] with
  | .error err =>
    { resp := none, err := some err, calls := [.newRequest (some ctx) "PUT" u body []],
      job := job }
  | .ok req =>
    match c.doRequest req () with
    | (_, resp, err) =>
      { resp := resp, err := err,
        calls := [.newRequest (some ctx) "PUT" u body [], .doRequest req], job := job }

/-! ## A reference plugins codec -/

/-- Modelled from the spec: `pipeline.Plugins` is not among the embedded
sources.  One entry of "a plugin-list structure": the plugin's source and its
"configuration object", a list of key/value settings (nil when the plugin is
listed by name only). -/
structure Plugin where
  Source : String
  Config : Option (List (String × String))
  deriving DecidableEq, Repr

/-- Modelled from the spec: the plugin list (`pipeline.Plugins`). -/
abbrev Plugins : Type := List Plugin

/-- Modelled from the spec: part of the codec of `pipeline.Plugins`.  Stores a
setting in a configuration kept sorted by key; a key already present is
overwritten. -/
def setKey (k v : String) : List (String × String) → List (String × String)
  | [] => [(k, v)]
  | (k', v') :: rest =>
    if k = k' then (k, v) :: rest
    else if k.data < k'.data then (k, v) :: (k', v') :: rest
    else (k', v') :: setKey k v rest

/-- Modelled from the spec: "a canonical field order" for a configuration
object, its settings sorted by key. -/
def canonicalConfig (config : List (String × String)) : List (String × String) :=
  config.foldl (fun acc kv => setKey kv.1 kv.2 acc) []

/-- Modelled from the spec: part of the codec of `pipeline.Plugins`.  A plugin
with its configuration in the canonical field order. -/
def Plugin.canonical (p : Plugin) : Plugin :=
  { p with Config := p.Config.map canonicalConfig }

/-- Modelled from the spec: part of the codec of `pipeline.Plugins`.  The
characters of a JSON string literal between its quotes: a quote or a backslash
is written after a backslash. -/
def escape : List Char → List Char
  | [] => []
  | c :: cs => if c = '"' ∨ c = '\\' then '\\' :: c :: escape cs else c :: escape cs

/-- Modelled from the spec: part of the codec of `pipeline.Plugins`.  A JSON
string literal. -/
def quoted (s : String) : List Char := '"' :: (escape s.data ++ ['"'])

/-- Modelled from the spec: part of the codec of `pipeline.Plugins`.  One member
of a configuration object. -/
def renderMember (kv : String × String) : List Char := quoted kv.1 ++ ':' :: quoted kv.2

/-- Modelled from the spec: part of the codec of `pipeline.Plugins`.  The
members after the first, each after a comma. -/
def renderMoreMembers : List (String × String) → List Char
  | [] => []
  | kv :: rest => ',' :: (renderMember kv ++ renderMoreMembers rest)

/-- Modelled from the spec: part of the codec of `pipeline.Plugins`.  The
members of a configuration object, in the order listed. -/
def renderConfig : List (String × String) → List Char
  | [] => []
  | kv :: rest => renderMember kv ++ renderMoreMembers rest

/-- Modelled from the spec: part of the codec of `pipeline.Plugins`.  One plugin
as JSON: its source alone, or a one-member object from the source to the
configuration object. -/
def renderPlugin (p : Plugin) : List Char :=
  match p.Config with
  | none => quoted p.Source
  | some config =>
    '\x7b' :: (quoted p.Source ++ ':' :: '\x7b' :: (renderConfig config ++ ['\x7d', '\x7d']))

/-- Modelled from the spec: part of the codec of `pipeline.Plugins`.  The
plugins after the first, each after a comma. -/
def renderMorePlugins : Plugins → List Char
  | [] => []
  | p :: rest => ',' :: (renderPlugin p ++ renderMorePlugins rest)

/-- Modelled from the spec: the JSON text of a plugin list, every
configuration object written in the key order it is listed in. -/
def renderPlugins : Plugins → String
  | [] => String.mk ['[', ']']
  | p :: rest => String.mk ('[' :: (renderPlugin p ++ renderMorePlugins rest ++ [']']))

/-- Modelled from the spec: part of the codec of `pipeline.Plugins`.  The
tokens of the JSON texts the codec reads. -/
inductive Token where
  | lbracket | rbracket | lbrace | rbrace | colon | comma
  | str (s : String)
  deriving DecidableEq, Repr

/-- Modelled from the spec: part of the codec of `pipeline.Plugins`.  Where the
tokenizer is: between tokens, inside a string literal read so far as `acc`
(reversed), or just after a backslash inside one. -/
inductive Lexing where
  | outside
  | inString (acc : List Char)
  | escaped (acc : List Char)

/-- Modelled from the spec: part of the codec of `pipeline.Plugins`.  The token
a punctuation character stands for. -/
def punctuation (c : Char) : Option Token :=
  if c = '[' then some .lbracket
  else if c = ']' then some .rbracket
  else if c = '\x7b' then some .lbrace
  else if c = '\x7d' then some .rbrace
  else if c = ':' then some .colon
  else if c = ',' then some .comma
  else none

/-- Modelled from the spec: part of the codec of `pipeline.Plugins`.  Splits a
JSON text into tokens.  Numbers, literals and escapes other than of a quote or
a backslash are outside the subset read here. -/
def tokenize : Lexing → List Char → Option (List Token)
  | .outside, [] => some []
  | .inString _, [] => none
  | .escaped _, [] => none
  | .escaped acc, c :: cs =>
    if c = '"' ∨ c = '\\' then tokenize (.inString (c :: acc)) cs else none
  | .inString acc, c :: cs =>
    if c = '"' then (tokenize .outside cs).map (Token.str (String.mk acc.reverse) :: ·)
    else if c = '\\' then tokenize (.escaped acc) cs
    else tokenize (.inString (c :: acc)) cs
  | .outside, c :: cs =>
    if c = '"' then tokenize (.inString []) cs
    else if c = ' ' ∨ c = '\n' ∨ c = '\t' ∨ c = '\r' then tokenize .outside cs
    else
      match punctuation c with
      | some t => (tokenize .outside cs).map (t :: ·)
      | none => none

/-- Modelled from the spec: part of the codec of `pipeline.Plugins`.  Reads the
members of a configuration object after its opening brace, up to and including
the closing brace, storing them into `acc`. -/
def parseConfig : List (String × String) → List Token →
    Option (List (String × String) × List Token)
  | acc, .rbrace :: rest => if acc = [] then some (acc, rest) else none
  | acc, .str k :: .colon :: .str v :: .rbrace :: rest => some (setKey k v acc, rest)
  | acc, .str k :: .colon :: .str v :: .comma :: rest => parseConfig (setKey k v acc) rest
  | _, _ => none

/-- Modelled from the spec: part of the codec of `pipeline.Plugins`.  What
follows an element `p` of the plugin array: the closing bracket, or a comma
and the remaining elements, read by `more`. -/
def afterElement (p : Plugin) (more : List Token → Option Plugins) :
    List Token → Option Plugins
  | [.rbracket] => some [p]
  | .comma :: rest => (more rest).map (p :: ·)
  | _ => none

/-- Modelled from the spec: part of the codec of `pipeline.Plugins`.  Reads one
or more elements of the plugin array, up to its closing bracket.  The first
argument bounds the number of elements. -/
def parseElements : Nat → List Token → Option Plugins
  | 0, _ => none
  | n + 1, .str source :: rest =>
    afterElement { Source := source, Config := none } (parseElements n) rest
  | n + 1, .lbrace :: .str source :: .colon :: .lbrace :: rest =>
    match parseConfig [] rest with
    | some (config, .rbrace :: rest') =>
      afterElement { Source := source, Config := some config } (parseElements n) rest'
    | _ => none
  | _ + 1, _ => none

/-- Modelled from the spec: part of the codec of `pipeline.Plugins`.  Reads the
tokens of a plugin array: `[]`, or `[` followed by its elements. -/
def parsePlugins : List Token → Option Plugins
  | [.lbracket, .rbracket] => some []
  | .lbracket :: ts => parseElements ts.length ts
  | _ => none

/-- Modelled from the spec: part of the codec of `pipeline.Plugins`.  The error
of a text outside the subset read. -/
inductive DecodeError where
  | invalid
  deriving DecidableEq, Repr

/-- Modelled from the spec: the JSON encoding of `pipeline.Plugins` is not
among the embedded sources.  "Parse it as a plugin-list structure, then
re-serialize that structure using a canonical field order", for the subset of
JSON in which a plugin list is an array of plugin sources and of one-member
objects from a source to an object of string settings.  The parse stores
every configuration sorted by key, so the parsed value does not record the
order the keys had in the text. -/
def referenceCodec : PluginsCodec Plugins DecodeError where
  Unmarshal s :=
    match (tokenize .outside s.data).bind parsePlugins with
    | some ps => .ok ps
    | none => .error .invalid
  Marshal ps := .ok (renderPlugins ps)

/-- Modelled from the spec: "same plugins, same config keys, different
serialization order" for two plugins: the same source and the same settings,
possibly listed in a different order. -/
def Plugin.sameSettings (p q : Plugin) : Prop :=
  p.Source = q.Source ∧
    match p.Config, q.Config with
    | none, none => True
    | some a, some b => a.Perm b
    | _, _ => False

/-- Modelled from the spec: every configuration object of the plugin list has
distinct keys. -/
def distinctKeys (ps : Plugins) : Prop :=
  ∀ p ∈ ps, ∀ config, p.Config = some config → (config.map Prod.fst).Nodup

/-! ## Auxiliary definitions for the statements -/

/-- The tokens of one member of a configuration object. -/
def memberTokens (kv : String × String) : List Token := [.str kv.1, .colon, .str kv.2]

/-- The tokens of `renderMoreMembers`. -/
def moreMemberTokens : List (String × String) → List Token
  | [] => []
  | kv :: rest => .comma :: (memberTokens kv ++ moreMemberTokens rest)

/-- The tokens of `renderConfig`. -/
def configTokens : List (String × String) → List Token
  | [] => []
  | kv :: rest => memberTokens kv ++ moreMemberTokens rest

/-- The tokens of `renderPlugin`. -/
def pluginTokens (p : Plugin) : List Token :=
  match p.Config with
  | none => [.str p.Source]
  | some config =>
    .lbrace :: .str p.Source :: .colon :: .lbrace :: (configTokens config ++ [.rbrace, .rbrace])

/-- The tokens of `renderMorePlugins`. -/
def morePluginTokens : Plugins → List Token
  | [] => []
  | p :: rest => .comma :: (pluginTokens p ++ morePluginTokens rest)

/-- The tokens of `renderPlugins`. -/
def pluginsTokens : Plugins → List Token
  | [] => [.lbracket, .rbracket]
  | p :: rest => .lbracket :: (pluginTokens p ++ morePluginTokens rest ++ [.rbracket])

/-- The characters `cs`, read between tokens, give the tokens `ts` and leave
the tokenizer between tokens. -/
def Lexes (cs : List Char) (ts : List Token) : Prop :=
  ∀ rest, tokenize .outside (cs ++ rest) = (tokenize .outside rest).map (ts ++ ·)

/-- The order the canonical form lists settings in: by key. -/
def keyBefore (a b : String × String) : Prop := a.1.data < b.1.data

/-- What one iteration of the loop of `ValuesForFields` does for the field `f`:
the value it stores under `f`, or the error it returns.  The equation with the
loop is `loop_cons`. -/
def fieldValue {S P E : Type} (codec : PluginsCodec P E) (EnvNamespacePrefix : String)
    (j : Job S) (f : String) : Except (JobError E) String :=
  if f = "command" then .ok (mapIndex j.Env "BUILDKITE_COMMAND")
  else if f = "plugins" then
    if mapIndex j.Env "BUILDKITE_PLUGINS" = "" then .ok ""
    else
      match codec.Unmarshal (mapIndex j.Env "BUILDKITE_PLUGINS") with
      | .error err => .error (.unmarshaling err)
      | .ok ps =>
        match codec.Marshal ps with
        | .error err => .error (.remarshaling err)
        | .ok normalised => .ok normalised
  else
    match CutPrefix f EnvNamespacePrefix with
    | (e, true) => .ok (mapIndex j.Env e)
    | (_, false) => .error (.unsupportedField f)

/-- The JSON text of `pluginsImageFirst`; it is in canonical form. -/
def imageFirstText : String :=
  "[\x7b\"docker#v5\":\x7b\"image\":\"go\",\"tty\":\"yes\"\x7d\x7d]"

/-- The JSON text of `pluginsTtyFirst`. -/
def ttyFirstText : String :=
  "[\x7b\"docker#v5\":\x7b\"tty\":\"yes\",\"image\":\"go\"\x7d\x7d]"

/-- A plugin list, the key `image` of the configuration first. -/
def pluginsImageFirst : Plugins :=
  [{ Source := "docker#v5", Config := some [("image", "go"), ("tty", "yes")] }]

/-- The plugin list of `pluginsImageFirst`, the key `tty` first. -/
def pluginsTtyFirst : Plugins :=
  [{ Source := "docker#v5", Config := some [("tty", "yes"), ("image", "go")] }]

/-- A client whose `newRequest` returns its method, path and body as the
request, and whose `doRequest` leaves the target as it is. -/
def stubClient : Client Unit Unit (String × String × RequestBody) Unit Unit where
  newRequest _ method urlStr body _ := .ok (method, urlStr, body)
  doRequest _ t := (t, some (), none)

/-- A job with the given environment and every other field at its zero value. -/
def jobWithEnv (env : Option StringMap) : Job Unit :=
  { ID := "", Endpoint := "", State := "", Env := env, Step := (),
    ChunksMaxSizeBytes := 0, LogMaxSizeBytes := 0, Token := "", ExitStatus := "",
    Signal := "", SignalReason := "", StartedAt := "", FinishedAt := "",
    RunnableAt := "", ChunksFailedCount := 0 }

/-- An env with `BUILDKITE_PLUGINS` set to the empty string and
`BUILDKITE_COMMAND` set to `echo hi`. -/
def emptyPluginsEnv : StringMap :=
  (Finmap.singleton "BUILDKITE_PLUGINS" "").insert "BUILDKITE_COMMAND" "echo hi"

/-- A job with the env `emptyPluginsEnv`. -/
def emptyPluginsJob : Job Unit := jobWithEnv (some emptyPluginsEnv)

/-! ## The loop of `ValuesForFields`, one field at a time -/

section Loop

variable {S P E : Type} (codec : PluginsCodec P E) (pfx : String) (j : Job S)

theorem insert_empty_eq_singleton (k v : String) :
    (∅ : StringMap).insert k v = Finmap.singleton k v := by
  rw [← Finmap.empty_toFinmap, Finmap.insert_toFinmap, AList.insert_empty]
  rfl

theorem cutPrefix_append (pre e : String) : CutPrefix (pre ++ e) pre = (e, true) := by
  simp [CutPrefix, HasPrefix]

theorem hasPrefix_append (pre e : String) : HasPrefix (pre ++ e) pre = true := by
  simp [HasPrefix]

theorem loop_cons (o : StringMap) (f : String) (rest : List String) :
    ValuesForFields.loop codec pfx j o (f :: rest) =
      match fieldValue codec pfx j f with
      | .error e => (none, some e)
      | .ok v => ValuesForFields.loop codec pfx j (o.insert f v) rest := by
  unfold fieldValue
  rw [ValuesForFields.loop]
  split_ifs
  · rfl
  · rfl
  · cases codec.Unmarshal (mapIndex j.Env "BUILDKITE_PLUGINS") with
    | error err => rfl
    | ok ps =>
      dsimp only
      cases codec.Marshal ps with
      | error err => rfl
      | ok normalised => rfl
  · rcases h : CutPrefix f pfx with ⟨e, _ | _⟩ <;> rfl

theorem fieldValue_command : fieldValue codec pfx j "command" =
    .ok (mapIndex j.Env "BUILDKITE_COMMAND") := by
  simp [fieldValue]

theorem fieldValue_namespaced (f : String) (hc : f ≠ "command") (hp : f ≠ "plugins")
    (h : HasPrefix f pfx = true) :
    fieldValue codec pfx j f = .ok (mapIndex j.Env (CutPrefix f pfx).1) := by
  simp [fieldValue, hc, hp, CutPrefix, h]

theorem fieldValue_unsupported (f : String) (h : ¬ supportedField pfx f) :
    fieldValue codec pfx j f = .error (.unsupportedField f) := by
  simp only [supportedField, not_or] at h
  obtain ⟨hc, hp, hn⟩ := h
  simp [fieldValue, hc, hp, CutPrefix, hn]

/-- Among the supported fields only `plugins` can make an iteration fail. -/
theorem fieldValue_ok_of_supported (f : String) (h : supportedField pfx f)
    (hp : f ≠ "plugins") : ∃ v, fieldValue codec pfx j f = .ok v := by
  by_cases hc : f = "command"
  · subst hc; exact ⟨_, fieldValue_command codec pfx j⟩
  · rcases h with h | h | h
    · exact absurd h hc
    · exact absurd h hp
    · exact ⟨_, fieldValue_namespaced codec pfx j f hc hp h⟩

/-- The result of a call on the single field `f`. -/
theorem valuesForFields_singleton (f : String) :
    j.ValuesForFields codec pfx [f] =
      match fieldValue codec pfx j f with
      | .error e => (none, some e)
      | .ok v => (some (Finmap.singleton f v), none) := by
  rw [Job.ValuesForFields, loop_cons]
  cases fieldValue codec pfx j f with
  | error e => rfl
  | ok v => simp [ValuesForFields.loop, insert_empty_eq_singleton]

theorem mapIndex_eq (env : Option StringMap) (k : String) :
    mapIndex env k =
      match env with
      | none => ""
      | some m =>
        match m.lookup k with
        | some v => v
        | none => "" := by
  cases env with
  | none => rfl
  | some m => cases h : m.lookup k <;> simp [mapIndex, h]

theorem fieldValue_plugins_empty (h : mapIndex j.Env "BUILDKITE_PLUGINS" = "") :
    fieldValue codec pfx j "plugins" = .ok "" := by
  simp [fieldValue, h]

theorem fieldValue_plugins_unmarshal_error (err : E)
    (hne : mapIndex j.Env "BUILDKITE_PLUGINS" ≠ "")
    (hu : codec.Unmarshal (mapIndex j.Env "BUILDKITE_PLUGINS") = .error err) :
    fieldValue codec pfx j "plugins" = .error (.unmarshaling err) := by
  simp [fieldValue, hne, hu]

theorem fieldValue_plugins_ok (ps : P) (normalised : String)
    (hne : mapIndex j.Env "BUILDKITE_PLUGINS" ≠ "")
    (hu : codec.Unmarshal (mapIndex j.Env "BUILDKITE_PLUGINS") = .ok ps)
    (hm : codec.Marshal ps = .ok normalised) :
    fieldValue codec pfx j "plugins" = .ok normalised := by
  simp [fieldValue, hne, hu, hm]

/-- A failing `plugins` iteration ends the loop with its error, whatever
supported fields are processed before it. -/
theorem loop_plugins_error (e : JobError E)
    (he : fieldValue codec pfx j "plugins" = .error e) (pre rest : List String)
    (hpre : ∀ g ∈ pre, supportedField pfx g) (o : StringMap) :
    ValuesForFields.loop codec pfx j o (pre ++ "plugins" :: rest) = (none, some e) := by
  induction pre generalizing o with
  | nil => simp [loop_cons, he]
  | cons g pre ih =>
    have hpre' : ∀ g ∈ pre, supportedField pfx g := fun x hx =>
      hpre x (List.mem_cons_of_mem _ hx)
    rw [List.cons_append, loop_cons]
    by_cases hg : g = "plugins"
    · subst hg; simp [he]
    · obtain ⟨v, hv⟩ := fieldValue_ok_of_supported codec pfx j g
        (hpre g (List.mem_cons_self _ _)) hg
      simp [hv, ih hpre']

/-- When every field before the first unsupported one is processed without
error, the loop ends with the unsupported-field error naming it. -/
theorem loop_unsupported (f : String) (hf : ¬ supportedField pfx f) (pre rest : List String)
    (hpre : ∀ g ∈ pre, supportedField pfx g)
    (hok : "plugins" ∉ pre ∨ ∃ v, fieldValue codec pfx j "plugins" = .ok v) (o : StringMap) :
    ValuesForFields.loop codec pfx j o (pre ++ f :: rest) =
      (none, some (.unsupportedField f)) := by
  induction pre generalizing o with
  | nil => simp [loop_cons, fieldValue_unsupported codec pfx j f hf]
  | cons g pre ih =>
    have hpre' : ∀ g ∈ pre, supportedField pfx g := fun x hx =>
      hpre x (List.mem_cons_of_mem _ hx)
    have hok' : "plugins" ∉ pre ∨ ∃ v, fieldValue codec pfx j "plugins" = .ok v := by
      rcases hok with h | h
      · exact Or.inl fun hmem => h (List.mem_cons_of_mem _ hmem)
      · exact Or.inr h
    have hg : ∃ v, fieldValue codec pfx j g = .ok v := by
      by_cases hgp : g = "plugins"
      · rcases hok with h | h
        · exact absurd (hgp ▸ List.mem_cons_self g pre) h
        · exact hgp ▸ h
      · exact fieldValue_ok_of_supported codec pfx j g (hpre g (List.mem_cons_self _ _)) hgp
    obtain ⟨v, hv⟩ := hg
    rw [List.cons_append, loop_cons, hv]
    exact ih hpre' hok' _

/-- Two supported fields next to each other can be processed in either order. -/
theorem loop_swap (a b : String) (ha : supportedField pfx a) (hb : supportedField pfx b)
    (l : List String) (o : StringMap) :
    ValuesForFields.loop codec pfx j o (a :: b :: l) =
      ValuesForFields.loop codec pfx j o (b :: a :: l) := by
  by_cases hab : a = b
  · subst hab; rfl
  · by_cases hap : a = "plugins"
    · have hbp : b ≠ "plugins" := fun h => hab (hap.trans h.symm)
      obtain ⟨vb, hvb⟩ := fieldValue_ok_of_supported codec pfx j b hb hbp
      rw [loop_cons, loop_cons _ _ _ o b, hvb]
      cases hva : fieldValue codec pfx j a with
      | error e => simp [loop_cons, hva]
      | ok va => simp [loop_cons, hva, hvb, Finmap.insert_insert_of_ne _ hab]
    · obtain ⟨va, hva⟩ := fieldValue_ok_of_supported codec pfx j a ha hap
      rw [loop_cons, loop_cons _ _ _ o b, hva]
      cases hvb : fieldValue codec pfx j b with
      | error e => simp [loop_cons, hvb]
      | ok vb => simp [loop_cons, hva, hvb, Finmap.insert_insert_of_ne _ hab]

/-- The loop gives the same result on two lists of supported fields that are
permutations of each other. -/
theorem loop_perm {l₁ l₂ : List String} (hperm : l₁.Perm l₂)
    (hsup : ∀ g ∈ l₁, supportedField pfx g) (o : StringMap) :
    ValuesForFields.loop codec pfx j o l₁ = ValuesForFields.loop codec pfx j o l₂ := by
  induction hperm generalizing o with
  | nil => rfl
  | cons x _ ih =>
    rw [loop_cons, loop_cons]
    cases fieldValue codec pfx j x with
    | error e => rfl
    | ok v => exact ih (fun g hg => hsup g (List.mem_cons_of_mem _ hg)) _
  | swap x y l =>
    exact loop_swap codec pfx j y x (hsup y (List.mem_cons_self _ _))
      (hsup x (List.mem_cons_of_mem _ (List.mem_cons_self _ _))) l o
  | trans h₁ _ ih₁ ih₂ =>
    exact (ih₁ hsup o).trans (ih₂ (fun g hg => hsup g (h₁.mem_iff.mpr hg)) o)

/-- What a successful run of the loop leaves in the output map: the keys it
had plus the fields processed, each field with the value of its iteration,
every other key as before. -/
theorem loop_success (fields : List String) (o o' : StringMap)
    (h : ValuesForFields.loop codec pfx j o fields = (some o', none)) :
    (∀ f, f ∈ o' ↔ f ∈ o ∨ f ∈ fields) ∧
    (∀ f ∈ fields, ∃ v, o'.lookup f = some v ∧ fieldValue codec pfx j f = .ok v) ∧
    (∀ f, f ∉ fields → o'.lookup f = o.lookup f) := by
  induction fields generalizing o with
  | nil =>
    simp only [ValuesForFields.loop, Prod.mk.injEq, Option.some.injEq, and_true] at h
    subst h
    simp
  | cons g rest ih =>
    rw [loop_cons] at h
    cases hv : fieldValue codec pfx j g with
    | error e => simp [hv] at h
    | ok v =>
      rw [hv] at h
      obtain ⟨hkeys, hvals, hframe⟩ := ih _ h
      refine ⟨?_, ?_, ?_⟩
      · intro f
        rw [hkeys, Finmap.mem_insert, List.mem_cons]
        tauto
      · intro f hf
        by_cases hfr : f ∈ rest
        · exact hvals f hfr
        · have hfg : f = g := by
            rcases List.mem_cons.mp hf with h' | h'
            · exact h'
            · exact absurd h' hfr
          subst hfg
          exact ⟨v, by rw [hframe f hfr, Finmap.lookup_insert], hv⟩
      · intro f hf
        rw [List.mem_cons, not_or] at hf
        rw [hframe f hf.2, Finmap.lookup_insert_of_ne _ hf.1]

/-- A run of the loop over fields whose iterations all succeed returns a map
and a nil error. -/
theorem loop_ok (fields : List String)
    (hall : ∀ g ∈ fields, ∃ v, fieldValue codec pfx j g = .ok v) (o : StringMap) :
    ∃ o', ValuesForFields.loop codec pfx j o fields = (some o', none) := by
  induction fields generalizing o with
  | nil => exact ⟨o, rfl⟩
  | cons g rest ih =>
    obtain ⟨v, hv⟩ := hall g (List.mem_cons_self _ _)
    rw [loop_cons, hv]
    exact ih (fun x hx => hall x (List.mem_cons_of_mem _ hx)) _

/-- With an empty `BUILDKITE_PLUGINS`, a run started from a map that already
holds `plugins ↦ ""` ends as the run started without it, with that entry
added. -/
theorem loop_insert_plugins (hempty : mapIndex j.Env "BUILDKITE_PLUGINS" = "")
    (rest : List String) (o : StringMap) :
    ValuesForFields.loop codec pfx j (o.insert "plugins" "") rest =
      match ValuesForFields.loop codec pfx j o rest with
      | (some o', err) => (some (o'.insert "plugins" ""), err)
      | (none, err) => (none, err) := by
  induction rest generalizing o with
  | nil => rfl
  | cons g rest ih =>
    rw [loop_cons, loop_cons]
    cases hv : fieldValue codec pfx j g with
    | error e => rfl
    | ok v =>
      by_cases hg : g = "plugins"
      · subst hg
        rw [fieldValue_plugins_empty codec pfx j hempty] at hv
        cases hv
        have h := ih (o.insert "plugins" "")
        simp only [Finmap.insert_insert] at h ⊢
        exact h
      · have hswap : (o.insert "plugins" "").insert g v = (o.insert g v).insert "plugins" "" :=
          Finmap.insert_insert_of_ne _ (Ne.symm hg)
        simp only [hswap]
        exact ih (o.insert g v)

/-- With an empty `BUILDKITE_PLUGINS`, a `plugins` field anywhere in the list
adds the entry `plugins ↦ ""` and changes nothing else of the run. -/
theorem loop_plugins_anywhere (hempty : mapIndex j.Env "BUILDKITE_PLUGINS" = "")
    (pre rest : List String) (o : StringMap) :
    ValuesForFields.loop codec pfx j o (pre ++ "plugins" :: rest) =
      match ValuesForFields.loop codec pfx j o (pre ++ rest) with
      | (some o', err) => (some (o'.insert "plugins" ""), err)
      | (none, err) => (none, err) := by
  induction pre generalizing o with
  | nil =>
    rw [List.nil_append, List.nil_append, loop_cons,
      fieldValue_plugins_empty codec pfx j hempty]
    exact loop_insert_plugins codec pfx j hempty rest o
  | cons g pre ih =>
    rw [List.cons_append, List.cons_append, loop_cons, loop_cons]
    cases fieldValue codec pfx j g with
    | error e => rfl
    | ok v => exact ih _

end Loop

/-! ## The reference codec reads back what it writes, in canonical order -/

section Lexer

theorem Lexes.nil : Lexes [] [] := by
  intro rest; simp

theorem Lexes.append {cs₁ cs₂ : List Char} {ts₁ ts₂ : List Token} (h₁ : Lexes cs₁ ts₁)
    (h₂ : Lexes cs₂ ts₂) : Lexes (cs₁ ++ cs₂) (ts₁ ++ ts₂) := by
  intro rest
  rw [List.append_assoc, h₁, h₂, Option.map_map]
  congr 1
  funext ts
  simp

theorem Lexes.punctuation {c : Char} {t : Token} (ht : punctuation c = some t) :
    Lexes [c] [t] := by
  intro rest
  have hq : c ≠ '"' := by rintro rfl; simp [Buildkite.punctuation] at ht
  have hw : ¬ (c = ' ' ∨ c = '\n' ∨ c = '\t' ∨ c = '\r') := by
    rintro (rfl | rfl | rfl | rfl) <;> simp [Buildkite.punctuation] at ht
  simp [tokenize, hq, hw, ht]

theorem tokenize_inString (s acc rest : List Char) :
    tokenize (.inString acc) (escape s ++ '"' :: rest) =
      (tokenize .outside rest).map (Token.str (String.mk (acc.reverse ++ s)) :: ·) := by
  induction s generalizing acc with
  | nil => simp [escape, tokenize]
  | cons c s ih =>
    by_cases hc : c = '"' ∨ c = '\\'
    · have : escape (c :: s) = '\\' :: c :: escape s := by simp [escape, hc]
      rw [this]
      simp only [List.cons_append, tokenize]
      simp [hc, ih]
    · have : escape (c :: s) = c :: escape s := by simp [escape, hc]
      rw [this]
      rw [not_or] at hc
      simp only [List.cons_append, tokenize]
      simp [hc.1, hc.2, ih]

theorem Lexes.quoted (s : String) : Lexes (quoted s) [.str s] := by
  intro rest
  simp only [Buildkite.quoted, List.cons_append, List.append_assoc, List.nil_append, tokenize]
  simp [tokenize_inString]

theorem Lexes.cons {c : Char} {t : Token} {cs : List Char} {ts : List Token}
    (ht : Buildkite.punctuation c = some t) (h : Lexes cs ts) : Lexes (c :: cs) (t :: ts) :=
  Lexes.append (Lexes.punctuation ht) h

theorem lexes_member (kv : String × String) : Lexes (renderMember kv) (memberTokens kv) :=
  Lexes.append (Lexes.quoted kv.1)
    (Lexes.cons (t := .colon) (by decide) (Lexes.quoted kv.2))

theorem lexes_moreMembers (l : List (String × String)) :
    Lexes (renderMoreMembers l) (moreMemberTokens l) := by
  induction l with
  | nil => exact Lexes.nil
  | cons kv rest ih =>
    exact Lexes.cons (t := .comma) (by decide) (Lexes.append (lexes_member kv) ih)

theorem lexes_config (l : List (String × String)) :
    Lexes (renderConfig l) (configTokens l) := by
  cases l with
  | nil => exact Lexes.nil
  | cons kv rest => exact Lexes.append (lexes_member kv) (lexes_moreMembers rest)

theorem lexes_plugin (p : Plugin) : Lexes (renderPlugin p) (pluginTokens p) := by
  obtain ⟨source, config⟩ := p
  cases config with
  | none => exact Lexes.quoted source
  | some config =>
    exact Lexes.cons (t := .lbrace) (by decide)
      (Lexes.append (Lexes.quoted source)
        (Lexes.cons (t := .colon) (by decide)
          (Lexes.cons (t := .lbrace) (by decide)
            (Lexes.append (lexes_config config)
              (Lexes.cons (t := .rbrace) (by decide)
                (Lexes.punctuation (t := .rbrace) (by decide)))))))

theorem lexes_morePlugins (ps : Plugins) :
    Lexes (renderMorePlugins ps) (morePluginTokens ps) := by
  induction ps with
  | nil => exact Lexes.nil
  | cons p rest ih =>
    exact Lexes.cons (t := .comma) (by decide) (Lexes.append (lexes_plugin p) ih)

theorem tokenize_renderPlugins (ps : Plugins) :
    tokenize .outside (renderPlugins ps).data = some (pluginsTokens ps) := by
  have key : Lexes (renderPlugins ps).data (pluginsTokens ps) := by
    cases ps with
    | nil =>
      exact Lexes.cons (t := .lbracket) (by decide)
        (Lexes.punctuation (t := .rbracket) (by decide))
    | cons p rest =>
      exact Lexes.cons (t := .lbracket) (by decide)
        (Lexes.append (Lexes.append (lexes_plugin p) (lexes_morePlugins rest))
          (Lexes.punctuation (t := .rbracket) (by decide)))
  have h := key []
  simpa [tokenize] using h

end Lexer

section Canonical

theorem keyBefore_trans {a b c : String × String} (h₁ : keyBefore a b) (h₂ : keyBefore b c) :
    keyBefore a c := lt_trans (α := List Char) h₁ h₂

theorem keyBefore_of_not {k k' : String} (v v' : String) (hne : k ≠ k')
    (h : ¬ k.data < k'.data) : keyBefore (k', v') (k, v) := by
  have hd : k.data ≠ k'.data := fun hd => hne (String.ext hd)
  exact lt_of_le_of_ne (not_lt.mp h) (Ne.symm hd)

theorem mem_setKey {k v : String} {l : List (String × String)} {b : String × String}
    (h : b ∈ setKey k v l) : b = (k, v) ∨ b ∈ l := by
  induction l with
  | nil => simpa [setKey] using h
  | cons a rest ih =>
    obtain ⟨k', v'⟩ := a
    unfold setKey at h
    split_ifs at h with h₁ h₂
    · rcases List.mem_cons.mp h with h | h
      · exact Or.inl h
      · exact Or.inr (List.mem_cons_of_mem _ h)
    · rcases List.mem_cons.mp h with h | h
      · exact Or.inl h
      · exact Or.inr h
    · rcases List.mem_cons.mp h with h | h
      · exact Or.inr (h ▸ List.mem_cons_self _ _)
      · rcases ih h with h | h
        · exact Or.inl h
        · exact Or.inr (List.mem_cons_of_mem _ h)

theorem setKey_sorted (k v : String) {l : List (String × String)}
    (hl : l.Pairwise keyBefore) : (setKey k v l).Pairwise keyBefore := by
  induction l with
  | nil => simp [setKey]
  | cons a rest ih =>
    obtain ⟨k', v'⟩ := a
    rw [List.pairwise_cons] at hl
    unfold setKey
    split_ifs with h₁ h₂
    · subst h₁
      exact List.pairwise_cons.mpr ⟨fun b hb => hl.1 b hb, hl.2⟩
    · refine List.pairwise_cons.mpr ⟨?_, List.pairwise_cons.mpr hl⟩
      intro b hb
      rcases List.mem_cons.mp hb with hb | hb
      · subst hb; exact h₂
      · exact keyBefore_trans (b := (k', v')) h₂ (hl.1 b hb)
    · refine List.pairwise_cons.mpr ⟨?_, ih hl.2⟩
      intro b hb
      rcases mem_setKey hb with hb | hb
      · subst hb; exact keyBefore_of_not v v' h₁ h₂
      · exact hl.1 b hb

theorem setKey_perm (k v : String) {l : List (String × String)}
    (hk : k ∉ l.map Prod.fst) : (setKey k v l).Perm ((k, v) :: l) := by
  induction l with
  | nil => simp [setKey]
  | cons a rest ih =>
    obtain ⟨k', v'⟩ := a
    have hne : k ≠ k' := fun h => hk (by simp [h])
    have hrest : k ∉ rest.map Prod.fst := fun h => hk (by simp at h ⊢; exact Or.inr h)
    unfold setKey
    split_ifs with h₁ h₂
    · exact absurd h₁ hne
    · exact List.Perm.refl _
    · exact ((ih hrest).cons _).trans (List.Perm.swap _ _ _)

theorem foldl_setKey (config acc : List (String × String))
    (hacc : acc.Pairwise keyBefore) (hnodup : ((config ++ acc).map Prod.fst).Nodup) :
    (config.foldl (fun acc kv => setKey kv.1 kv.2 acc) acc).Pairwise keyBefore ∧
    (config.foldl (fun acc kv => setKey kv.1 kv.2 acc) acc).Perm (config ++ acc) := by
  induction config generalizing acc with
  | nil => exact ⟨hacc, List.Perm.refl _⟩
  | cons kv rest ih =>
    obtain ⟨k, v⟩ := kv
    have hperm₀ : (rest ++ (k, v) :: acc).Perm ((k, v) :: rest ++ acc) := List.perm_middle
    have hk : k ∉ acc.map Prod.fst := by
      intro hmem
      simp only [List.cons_append, List.map_cons, List.map_append, List.nodup_cons,
        List.mem_append] at hnodup
      exact hnodup.1 (Or.inr hmem)
    have hstep : (rest ++ setKey k v acc).Perm ((k, v) :: rest ++ acc) :=
      ((setKey_perm k v hk).append_left rest).trans hperm₀
    have hnodup' : ((rest ++ setKey k v acc).map Prod.fst).Nodup :=
      ((hstep.map Prod.fst).nodup_iff).mpr hnodup
    obtain ⟨hs, hp⟩ := ih (setKey k v acc) (setKey_sorted k v hacc) hnodup'
    exact ⟨hs, hp.trans hstep⟩

theorem canonicalConfig_sorted_perm (config : List (String × String))
    (hnodup : (config.map Prod.fst).Nodup) :
    (canonicalConfig config).Pairwise keyBefore ∧ (canonicalConfig config).Perm config := by
  have h := foldl_setKey config [] List.Pairwise.nil (by simpa using hnodup)
  simpa [canonicalConfig] using h

/-- The canonical field order does not depend on the order the settings are
listed in. -/
theorem canonicalConfig_perm {a b : List (String × String)} (hperm : a.Perm b)
    (hnodup : (a.map Prod.fst).Nodup) : canonicalConfig a = canonicalConfig b := by
  have hnodup' : (b.map Prod.fst).Nodup := ((hperm.map Prod.fst).nodup_iff).mp hnodup
  obtain ⟨hsa, hpa⟩ := canonicalConfig_sorted_perm a hnodup
  obtain ⟨hsb, hpb⟩ := canonicalConfig_sorted_perm b hnodup'
  haveI : IsAntisymm (String × String) keyBefore :=
    ⟨fun x y h₁ h₂ => absurd (keyBefore_trans h₁ h₂) (lt_irrefl (α := List Char) _)⟩
  exact List.eq_of_perm_of_sorted (hpa.trans (hperm.trans hpb.symm)) hsa hsb

end Canonical

section Parser

theorem parseConfig_members (rest : List (String × String)) (acc : List (String × String))
    (k v : String) (tail : List Token) :
    parseConfig acc (.str k :: .colon :: .str v :: (moreMemberTokens rest ++ .rbrace :: tail)) =
      some (rest.foldl (fun acc kv => setKey kv.1 kv.2 acc) (setKey k v acc), tail) := by
  induction rest generalizing acc k v with
  | nil => simp [moreMemberTokens, parseConfig]
  | cons kv rest ih =>
    obtain ⟨k', v'⟩ := kv
    simp only [moreMemberTokens, memberTokens, List.cons_append, List.nil_append, parseConfig,
      List.foldl_cons]
    exact ih _ _ _

theorem parseConfig_config (config : List (String × String)) (tail : List Token) :
    parseConfig [] (configTokens config ++ .rbrace :: tail) =
      some (canonicalConfig config, tail) := by
  cases config with
  | nil => simp [configTokens, parseConfig, canonicalConfig]
  | cons kv rest =>
    obtain ⟨k, v⟩ := kv
    simp only [configTokens, memberTokens, List.cons_append, List.nil_append]
    rw [parseConfig_members]
    simp [canonicalConfig]

theorem parseElements_plugin (n : Nat) (p : Plugin) (tail : List Token) :
    parseElements (n + 1) (pluginTokens p ++ tail) =
      afterElement p.canonical (parseElements n) tail := by
  obtain ⟨source, config⟩ := p
  cases config with
  | none => simp [pluginTokens, parseElements, Plugin.canonical]
  | some config =>
    have h : parseConfig [] ((configTokens config ++ [Token.rbrace, Token.rbrace]) ++ tail) =
        some (canonicalConfig config, Token.rbrace :: tail) := by
      rw [List.append_assoc]
      exact parseConfig_config config (Token.rbrace :: tail)
    simp only [pluginTokens, List.cons_append, parseElements, List.append_eq, Plugin.canonical,
      Option.map_some']
    rw [h]

theorem parseElements_plugins (rest : Plugins) (n : Nat) (p : Plugin)
    (hn : rest.length < n) :
    parseElements n (pluginTokens p ++ morePluginTokens rest ++ [.rbracket]) =
      some (p.canonical :: rest.map Plugin.canonical) := by
  induction rest generalizing n p with
  | nil =>
    obtain ⟨n, rfl⟩ : ∃ m, n = m + 1 := ⟨n - 1, by simp at hn; omega⟩
    simp [morePluginTokens, parseElements_plugin, afterElement]
  | cons q rest ih =>
    obtain ⟨n, rfl⟩ : ∃ m, n = m + 1 := ⟨n - 1, by simp at hn; omega⟩
    have hn' : rest.length < n := by simp at hn; omega
    simp only [morePluginTokens, List.append_assoc, List.cons_append]
    rw [parseElements_plugin]
    simp only [afterElement]
    rw [← List.append_assoc, ih n q hn']
    simp

theorem length_morePluginTokens (ps : Plugins) : ps.length ≤ (morePluginTokens ps).length := by
  induction ps with
  | nil => simp
  | cons p rest ih => simp [morePluginTokens]; omega

theorem pluginTokens_ne_nil (p : Plugin) : pluginTokens p ≠ [] := by
  obtain ⟨source, config⟩ := p
  cases config <;> simp [pluginTokens]

theorem parsePlugins_tokens (ps : Plugins) :
    parsePlugins (pluginsTokens ps) = some (ps.map Plugin.canonical) := by
  cases ps with
  | nil => simp [pluginsTokens, parsePlugins]
  | cons p rest =>
    have hlen : rest.length <
        (pluginTokens p ++ morePluginTokens rest ++ [Token.rbracket]).length := by
      have := length_morePluginTokens rest
      simp; omega
    have hshape : parsePlugins (.lbracket ::
        (pluginTokens p ++ morePluginTokens rest ++ [Token.rbracket])) =
        parseElements (pluginTokens p ++ morePluginTokens rest ++ [Token.rbracket]).length
          (pluginTokens p ++ morePluginTokens rest ++ [Token.rbracket]) := by
      obtain ⟨source, config⟩ := p
      cases config <;> simp [pluginTokens, parsePlugins]
    rw [pluginsTokens, hshape, parseElements_plugins rest _ p hlen]
    simp

/-- The reference codec reads the JSON text of a plugin list back as that
list, every configuration in the canonical field order. -/
theorem unmarshal_renderPlugins (ps : Plugins) :
    referenceCodec.Unmarshal (renderPlugins ps) = .ok (ps.map Plugin.canonical) := by
  simp [referenceCodec, tokenize_renderPlugins, parsePlugins_tokens]

theorem renderPlugins_ne_empty (ps : Plugins) : renderPlugins ps ≠ "" := by
  intro h
  have hd := congrArg String.data h
  cases ps <;> simp [renderPlugins] at hd

theorem canonical_sameSettings {p q : Plugin} (h : p.sameSettings q)
    (hp : ∀ config, p.Config = some config → (config.map Prod.fst).Nodup) :
    p.canonical = q.canonical := by
  obtain ⟨ps, pc⟩ := p
  obtain ⟨qs, qc⟩ := q
  obtain ⟨hs, hc⟩ := h
  simp only at hs
  subst hs
  cases pc with
  | none => cases qc with
    | none => rfl
    | some b => exact absurd hc (by simp)
  | some a => cases qc with
    | none => exact absurd hc (by simp)
    | some b =>
      simp only [Plugin.canonical, Option.map_some']
      rw [canonicalConfig_perm hc (hp a rfl)]

theorem map_canonical_sameSettings {ps qs : Plugins}
    (h : List.Forall₂ Plugin.sameSettings ps qs) (hd : distinctKeys ps) :
    ps.map Plugin.canonical = qs.map Plugin.canonical := by
  induction h with
  | nil => rfl
  | cons hpq _ ih =>
    rw [List.map_cons, List.map_cons,
      canonical_sameSettings hpq (fun config hc => hd _ (List.mem_cons_self _ _) config hc),
      ih (fun p hp => hd p (List.mem_cons_of_mem _ hp))]

end Parser

/-! ## Canonicalisation of single fields -/

section Fields

variable {S P E : Type} (codec : PluginsCodec P E) (pfx : String) (j : Job S)

/-- C3: for every job, `ValuesForFields(["command"])` succeeds (nil error) and
returns the map with the single key `command`, holding the value of
`BUILDKITE_COMMAND` in the job's env, or the empty string when the env map is
nil or has no such key (an empty map in particular). -/
theorem ValuesForFields_command :
    j.ValuesForFields codec pfx ["command"] =
      (some (Finmap.singleton "command"
        (match j.Env with
         | none => ""
         | some env =>
           match env.lookup "BUILDKITE_COMMAND" with
           | some v => v
           | none => "")), none) := by
  rw [valuesForFields_singleton, fieldValue_command, mapIndex_eq]

/-- C4: for every job and every field name `f` that consists of the namespace
prefix followed by a name `e`, and is neither `command` nor `plugins`,
`ValuesForFields([f])` succeeds and returns the map with the single key `f`
(the full name, prefix included), holding the value of the environment
variable `e`, or the empty string when the env has no variable `e`. -/
theorem ValuesForFields_namespaced (f e : String) (hf : f = pfx ++ e)
    (hc : f ≠ "command") (hp : f ≠ "plugins") :
    j.ValuesForFields codec pfx [f] =
      (some (Finmap.singleton f
        (match j.Env with
         | none => ""
         | some env =>
           match env.lookup e with
           | some v => v
           | none => "")), none) := by
  subst hf
  rw [valuesForFields_singleton,
    fieldValue_namespaced codec pfx j _ hc hp (hasPrefix_append pfx e), cutPrefix_append,
    mapIndex_eq]

/-- C5: for every job whose env is nil, has no `BUILDKITE_PLUGINS`, or has it
set to the empty string, and for every plugins codec (none is consulted):
`ValuesForFields(["plugins"])` succeeds with the map `plugins ↦ ""`; a call on
`plugins` followed by supported fields succeeds with a map that holds
`plugins ↦ ""`, has exactly `plugins` and the following fields as keys, and
holds under `command` and under every namespaced field the value of its
environment variable; a call on `plugins` followed by supported fields and then
an unsupported field `f` fails with the unsupported-field error naming `f`;
and wherever `plugins` stands in a list, the result is that of the list
without it, with the entry `plugins ↦ ""` added on success. -/
theorem ValuesForFields_plugins_empty
    (h : j.Env = none ∨ ∃ env, j.Env = some env ∧
      (env.lookup "BUILDKITE_PLUGINS" = none ∨ env.lookup "BUILDKITE_PLUGINS" = some "")) :
    j.ValuesForFields codec pfx ["plugins"] = (some (Finmap.singleton "plugins" ""), none) ∧
    (∀ rest : List String, (∀ g ∈ rest, supportedField pfx g) →
      ∃ o, j.ValuesForFields codec pfx ("plugins" :: rest) = (some o, none) ∧
        o.lookup "plugins" = some "" ∧
        (∀ f, f ∈ o ↔ f = "plugins" ∨ f ∈ rest) ∧
        ("command" ∈ rest → o.lookup "command" =
          some (match j.Env with
            | none => ""
            | some env =>
              match env.lookup "BUILDKITE_COMMAND" with
              | some v => v
              | none => "")) ∧
        (∀ e, pfx ++ e ∈ rest → pfx ++ e ≠ "command" → pfx ++ e ≠ "plugins" →
          o.lookup (pfx ++ e) =
            some (match j.Env with
              | none => ""
              | some env =>
                match env.lookup e with
                | some v => v
                | none => ""))) ∧
    (∀ (rest : List String) (f : String) (tail : List String),
      (∀ g ∈ rest, supportedField pfx g) → ¬ supportedField pfx f →
      j.ValuesForFields codec pfx ("plugins" :: (rest ++ f :: tail)) =
        (none, some (.unsupportedField f))) ∧
    (∀ pre rest : List String,
      j.ValuesForFields codec pfx (pre ++ "plugins" :: rest) =
        match j.ValuesForFields codec pfx (pre ++ rest) with
        | (some o, err) => (some (o.insert "plugins" ""), err)
        | (none, err) => (none, err)) := by
  have hempty : mapIndex j.Env "BUILDKITE_PLUGINS" = "" := by
    rcases h with h | ⟨env, h, h' | h'⟩ <;> simp [mapIndex, h, *]
  have hv := fieldValue_plugins_empty codec pfx j hempty
  have hsupp : ∀ g, supportedField pfx g → ∃ v, fieldValue codec pfx j g = .ok v := by
    intro g hg
    by_cases hgp : g = "plugins"
    · exact ⟨"", hgp ▸ hv⟩
    · exact fieldValue_ok_of_supported codec pfx j g hg hgp
  refine ⟨?_, ?_, ?_, ?_⟩
  · rw [valuesForFields_singleton, hv]
  · intro rest hrest
    have hall : ∀ g ∈ "plugins" :: rest, ∃ v, fieldValue codec pfx j g = .ok v := by
      intro g hg
      rcases List.mem_cons.mp hg with hg | hg
      · exact ⟨"", hg ▸ hv⟩
      · exact hsupp g (hrest g hg)
    obtain ⟨o, ho⟩ := loop_ok codec pfx j ("plugins" :: rest) hall ∅
    obtain ⟨hkeys, hvals, -⟩ := loop_success codec pfx j ("plugins" :: rest) ∅ o ho
    refine ⟨o, ho, ?_, ?_, ?_, ?_⟩
    · obtain ⟨v, hlook, hval⟩ := hvals "plugins" (List.mem_cons_self _ _)
      rw [hv] at hval
      cases hval
      exact hlook
    · intro f
      rw [hkeys f, List.mem_cons]
      simp [Finmap.not_mem_empty]
    · intro hmem
      obtain ⟨v, hlook, hval⟩ := hvals "command" (List.mem_cons_of_mem _ hmem)
      rw [fieldValue_command, mapIndex_eq] at hval
      cases hval
      exact hlook
    · intro e hmem hc hp
      obtain ⟨v, hlook, hval⟩ := hvals (pfx ++ e) (List.mem_cons_of_mem _ hmem)
      rw [fieldValue_namespaced codec pfx j _ hc hp (hasPrefix_append pfx e),
        cutPrefix_append, mapIndex_eq] at hval
      cases hval
      exact hlook
  · intro rest f tail hrest hf
    have hpre : ∀ g ∈ "plugins" :: rest, supportedField pfx g := by
      intro g hg
      rcases List.mem_cons.mp hg with hg | hg
      · exact hg ▸ Or.inr (Or.inl rfl)
      · exact hrest g hg
    exact loop_unsupported codec pfx j f hf ("plugins" :: rest) tail hpre
      (Or.inr ⟨"", hv⟩) ∅
  · intro pre rest
    exact loop_plugins_anywhere codec pfx j hempty pre rest ∅

/-- The value stored under `plugins` depends on the text of `BUILDKITE_PLUGINS`
only through the plugin list it unmarshals to: for every codec, a non-empty
text that unmarshals to `ps` gives the serialisation of `ps`. -/
theorem valuesForFields_plugins_of_unmarshal (ps : P) (normalised : String)
    (hne : mapIndex j.Env "BUILDKITE_PLUGINS" ≠ "")
    (hu : codec.Unmarshal (mapIndex j.Env "BUILDKITE_PLUGINS") = .ok ps)
    (hm : codec.Marshal ps = .ok normalised) :
    j.ValuesForFields codec pfx ["plugins"] =
      (some (Finmap.singleton "plugins" normalised), none) := by
  rw [valuesForFields_singleton, fieldValue_plugins_ok codec pfx j ps normalised hne hu hm]

/-- C2: for every two jobs whose `BUILDKITE_PLUGINS` values are the JSON texts
of two plugin lists with the same plugins and the same settings (distinct keys
in every configuration object), the settings possibly written in a different
key order, `ValuesForFields(["plugins"])` succeeds on both and returns the same
string under the key `plugins`: the text of the list in canonical key order. -/
theorem ValuesForFields_plugins_key_order (j₁ j₂ : Job S) (ps₁ ps₂ : Plugins)
    (hsame : List.Forall₂ Plugin.sameSettings ps₁ ps₂) (hkeys : distinctKeys ps₁)
    (h₁ : mapIndex j₁.Env "BUILDKITE_PLUGINS" = renderPlugins ps₁)
    (h₂ : mapIndex j₂.Env "BUILDKITE_PLUGINS" = renderPlugins ps₂) :
    j₁.ValuesForFields referenceCodec pfx ["plugins"] =
      (some (Finmap.singleton "plugins" (renderPlugins (ps₁.map Plugin.canonical))), none) ∧
    j₂.ValuesForFields referenceCodec pfx ["plugins"] =
      (some (Finmap.singleton "plugins" (renderPlugins (ps₁.map Plugin.canonical))), none) := by
  constructor
  · apply valuesForFields_plugins_of_unmarshal referenceCodec pfx j₁ (ps₁.map Plugin.canonical)
    · rw [h₁]; exact renderPlugins_ne_empty ps₁
    · rw [h₁]; exact unmarshal_renderPlugins ps₁
    · rfl
  · apply valuesForFields_plugins_of_unmarshal referenceCodec pfx j₂ (ps₁.map Plugin.canonical)
    · rw [h₂]; exact renderPlugins_ne_empty ps₂
    · rw [h₂, map_canonical_sameSettings hsame hkeys]; exact unmarshal_renderPlugins ps₂
    · rfl

/-- C9: for every job whose `BUILDKITE_PLUGINS` value is non-empty and fails to
unmarshal with error `err`, and every field list in which `plugins` comes
after supported fields only, `ValuesForFields` returns a nil map and the error
that wraps `err` under the message of the unmarshal stage. -/
theorem ValuesForFields_plugins_unmarshal_error (pre rest : List String) (err : E)
    (hpre : ∀ g ∈ pre, supportedField pfx g)
    (hne : mapIndex j.Env "BUILDKITE_PLUGINS" ≠ "")
    (hu : codec.Unmarshal (mapIndex j.Env "BUILDKITE_PLUGINS") = .error err) :
    j.ValuesForFields codec pfx (pre ++ "plugins" :: rest) =
      (none, some (.unmarshaling err)) ∧
    (JobError.unmarshaling err).Unwrap = some err ∧
    ∀ (msg : E → String) (quote : String → String),
      (JobError.unmarshaling err).Error msg quote =
        "unmarshaling BUIDLKITE_PLUGINS: " ++ msg err :=
  ⟨loop_plugins_error codec pfx j _
      (fieldValue_plugins_unmarshal_error codec pfx j err hne hu) pre rest hpre ∅,
    rfl, fun _ _ => rfl⟩

/-- C1, amended: for every job and every field list whose first unsupported
name is `f` (only supported names before it), `ValuesForFields` returns a nil
map; its error is the unsupported-field error naming `f` when `plugins` is not
among the fields before `f` or canonicalises without error, and is the error
of the `plugins` canonicalisation otherwise. -/
theorem ValuesForFields_first_unsupported (pre rest : List String) (f : String)
    (hpre : ∀ g ∈ pre, supportedField pfx g) (hf : ¬ supportedField pfx f) :
    (j.ValuesForFields codec pfx (pre ++ f :: rest)).1 = none ∧
    (("plugins" ∉ pre ∨ (j.ValuesForFields codec pfx ["plugins"]).2 = none) →
      j.ValuesForFields codec pfx (pre ++ f :: rest) =
        (none, some (.unsupportedField f))) ∧
    ("plugins" ∈ pre → (j.ValuesForFields codec pfx ["plugins"]).2 ≠ none →
      j.ValuesForFields codec pfx (pre ++ f :: rest) =
        j.ValuesForFields codec pfx ["plugins"]) := by
  have hsingle := valuesForFields_singleton codec pfx j "plugins"
  cases hv : fieldValue codec pfx j "plugins" with
  | ok v =>
    rw [hv] at hsingle
    have hmain := loop_unsupported codec pfx j f hf pre rest hpre (Or.inr ⟨v, hv⟩) ∅
    refine ⟨?_, ?_, ?_⟩
    · rw [Job.ValuesForFields, hmain]
    · intro _; exact hmain
    · intro _ hne; rw [hsingle] at hne; exact absurd rfl hne
  | error e =>
    rw [hv] at hsingle
    by_cases hmem : "plugins" ∈ pre
    · obtain ⟨a, b, hab⟩ := List.append_of_mem hmem
      have ha : ∀ g ∈ a, supportedField pfx g := fun g hg =>
        hpre g (by rw [hab]; exact List.mem_append_left _ hg)
      have hmain := loop_plugins_error codec pfx j e hv a (b ++ f :: rest) ha ∅
      have hlist : pre ++ f :: rest = a ++ "plugins" :: (b ++ f :: rest) := by
        rw [hab]; simp
      refine ⟨?_, ?_, ?_⟩
      · rw [Job.ValuesForFields, hlist, hmain]
      · rintro (h | h)
        · exact absurd hmem h
        · rw [hsingle] at h; simp at h
      · intro _ _; rw [hsingle, Job.ValuesForFields, hlist, hmain]
    · have hmain := loop_unsupported codec pfx j f hf pre rest hpre (Or.inl hmem) ∅
      refine ⟨?_, ?_, ?_⟩
      · rw [Job.ValuesForFields, hmain]
      · intro _; exact hmain
      · intro h; exact absurd h hmem

/-- C6, amended: for every job and every list of supported field names, the
result of `ValuesForFields` is the same for every reordering of the list (the
output map keeps no order); when the call succeeds, the output map has exactly
the requested names as keys and each requested name holds the value a call on
that name alone returns, so the caller reads the values back in the order of
its own list by looking each name up. -/
theorem ValuesForFields_perm (fields fields' : List String)
    (hsup : ∀ g ∈ fields, supportedField pfx g) (hperm : fields.Perm fields') :
    j.ValuesForFields codec pfx fields' = j.ValuesForFields codec pfx fields ∧
    ∀ o, j.ValuesForFields codec pfx fields = (some o, none) →
      (∀ f, f ∈ o ↔ f ∈ fields) ∧
      ∀ f ∈ fields, ∃ v, o.lookup f = some v ∧
        j.ValuesForFields codec pfx [f] = (some (Finmap.singleton f v), none) := by
  refine ⟨(loop_perm codec pfx j hperm hsup ∅).symm, ?_⟩
  intro o ho
  obtain ⟨hkeys, hvals, -⟩ := loop_success codec pfx j fields ∅ o ho
  refine ⟨fun f => by simp [hkeys f, Finmap.not_mem_empty], ?_⟩
  intro f hf
  obtain ⟨v, hlook, hv⟩ := hvals f hf
  exact ⟨v, hlook, by rw [valuesForFields_singleton, hv]⟩

end Fields

/-! ## Concrete runs of `ValuesForFields` -/

/-- C1, counterexample: with `BUILDKITE_PLUGINS` set to `not json`, the call on
`["plugins", "bogus"]` has only the supported field `plugins` before the
unsupported `bogus`, and its error is the unmarshal error of `plugins`, not the
unsupported-field error naming `bogus`. -/
theorem ValuesForFields_unsupported_after_plugins :
    supportedField "env::" "plugins" ∧ ¬ supportedField "env::" "bogus" ∧
    (jobWithEnv (some (Finmap.singleton "BUILDKITE_PLUGINS" "not json"))).ValuesForFields
        referenceCodec "env::" ["plugins", "bogus"] =
      (none, some (.unmarshaling .invalid)) ∧
    (jobWithEnv (some (Finmap.singleton "BUILDKITE_PLUGINS" "not json"))).ValuesForFields
        referenceCodec "env::" ["plugins", "bogus"] ≠
      (none, some (.unsupportedField "bogus")) := by
  refine ⟨by decide, by decide, ?_, ?_⟩ <;> decide

/-- C1, at a concrete input: `["command", "bogus"]` fails with the
unsupported-field error naming `bogus`. -/
theorem ValuesForFields_first_unsupported_witness :
    (jobWithEnv (some (Finmap.singleton "BUILDKITE_COMMAND" "echo hi"))).ValuesForFields
        referenceCodec "env::" ["command", "bogus"] =
      (none, some (.unsupportedField "bogus")) :=
  (ValuesForFields_first_unsupported referenceCodec "env::"
    (jobWithEnv (some (Finmap.singleton "BUILDKITE_COMMAND" "echo hi")))
    ["command"] [] "bogus" (by decide) (by decide)).2.1 (Or.inl (by decide))

/-- C2, at a concrete input: the two key orders of one plugin list give the
same canonical string. -/
theorem ValuesForFields_plugins_key_order_witness :
    renderPlugins pluginsImageFirst = imageFirstText ∧
    renderPlugins pluginsTtyFirst = ttyFirstText ∧
    imageFirstText ≠ ttyFirstText ∧
    (jobWithEnv (some (Finmap.singleton "BUILDKITE_PLUGINS" imageFirstText))).ValuesForFields
        referenceCodec "env::" ["plugins"] =
      (some (Finmap.singleton "plugins" imageFirstText), none) ∧
    (jobWithEnv (some (Finmap.singleton "BUILDKITE_PLUGINS" ttyFirstText))).ValuesForFields
        referenceCodec "env::" ["plugins"] =
      (some (Finmap.singleton "plugins" imageFirstText), none) := by
  have hsame : List.Forall₂ Plugin.sameSettings pluginsImageFirst pluginsTtyFirst :=
    List.Forall₂.cons ⟨rfl, List.Perm.swap _ _ _⟩ List.Forall₂.nil
  have hkeys : distinctKeys pluginsImageFirst := by
    intro p hp config hc
    simp only [pluginsImageFirst, List.mem_singleton] at hp
    subst hp
    simp only [Option.some.injEq] at hc
    subst hc
    decide
  have hcanon : renderPlugins (pluginsImageFirst.map Plugin.canonical) = imageFirstText := by
    decide
  have h := ValuesForFields_plugins_key_order "env::"
    (jobWithEnv (some (Finmap.singleton "BUILDKITE_PLUGINS" imageFirstText)))
    (jobWithEnv (some (Finmap.singleton "BUILDKITE_PLUGINS" ttyFirstText)))
    pluginsImageFirst pluginsTtyFirst hsame hkeys (by decide) (by decide)
  rw [hcanon] at h
  exact ⟨by decide, by decide, by decide, h.1, h.2⟩

/-- C3, at the input of the spec: `BUILDKITE_COMMAND` set to `echo hi`. -/
theorem ValuesForFields_command_witness :
    (jobWithEnv (some (Finmap.singleton "BUILDKITE_COMMAND" "echo hi"))).ValuesForFields
        referenceCodec "env::" ["command"] =
      (some (Finmap.singleton "command" "echo hi"), none) ∧
    (jobWithEnv none).ValuesForFields referenceCodec "env::" ["command"] =
      (some (Finmap.singleton "command" ""), none) ∧
    (jobWithEnv (some ∅)).ValuesForFields referenceCodec "env::" ["command"] =
      (some (Finmap.singleton "command" ""), none) :=
  ⟨ValuesForFields_command referenceCodec "env::" _,
    ValuesForFields_command referenceCodec "env::" _,
    ValuesForFields_command referenceCodec "env::" _⟩

/-- C4, at the input of the spec: the field `x-bk-env:FOO` under the namespace
prefix `x-bk-env:`, with `FOO` set to `bar`. -/
theorem ValuesForFields_namespaced_witness :
    (jobWithEnv (some (Finmap.singleton "FOO" "bar"))).ValuesForFields
        referenceCodec "x-bk-env:" ["x-bk-env:FOO"] =
      (some (Finmap.singleton "x-bk-env:FOO" "bar"), none) :=
  ValuesForFields_namespaced referenceCodec "x-bk-env:"
    (jobWithEnv (some (Finmap.singleton "FOO" "bar"))) "x-bk-env:FOO" "FOO" (by decide)
    (by decide) (by decide)

/-- C5, at the input of the spec extended by a command: `BUILDKITE_PLUGINS` set
to the empty string, which the reference codec would not unmarshal; the fields
after `plugins` are processed. -/
theorem ValuesForFields_plugins_empty_witness :
    referenceCodec.Unmarshal "" = .error .invalid ∧
    emptyPluginsJob.ValuesForFields referenceCodec "env::" ["plugins"] =
      (some (Finmap.singleton "plugins" ""), none) ∧
    emptyPluginsJob.ValuesForFields referenceCodec "env::" ["plugins", "command"] =
      (some ((Finmap.singleton "command" "echo hi").insert "plugins" ""), none) ∧
    emptyPluginsJob.ValuesForFields referenceCodec "env::" ["plugins", "command", "bogus"] =
      (none, some (.unsupportedField "bogus")) := by
  have henv : emptyPluginsJob.Env = none ∨ ∃ env, emptyPluginsJob.Env = some env ∧
      (env.lookup "BUILDKITE_PLUGINS" = none ∨ env.lookup "BUILDKITE_PLUGINS" = some "") :=
    Or.inr ⟨emptyPluginsEnv, rfl, Or.inr (by decide)⟩
  have h := ValuesForFields_plugins_empty referenceCodec "env::" emptyPluginsJob henv
  have hcommand : emptyPluginsJob.ValuesForFields referenceCodec "env::" ["command"] =
      (some (Finmap.singleton "command" "echo hi"), none) := by decide
  have hafter := h.2.2.2 [] ["command"]
  rw [List.nil_append, List.nil_append, hcommand] at hafter
  exact ⟨rfl, h.1, hafter, h.2.2.1 ["command"] "bogus" [] (by decide) (by decide)⟩

/-- C6, counterexample: the calls on `["command", "plugins"]` and on
`["plugins", "command"]` return the same output; nothing in it tells the two
orders apart. -/
theorem ValuesForFields_order_not_kept :
    ["command", "plugins"] ≠ ["plugins", "command"] ∧
    (jobWithEnv (some (Finmap.singleton "BUILDKITE_COMMAND" "echo hi"))).ValuesForFields
        referenceCodec "env::" ["command", "plugins"] =
      (jobWithEnv (some (Finmap.singleton "BUILDKITE_COMMAND" "echo hi"))).ValuesForFields
        referenceCodec "env::" ["plugins", "command"] ∧
    ∃ o, (jobWithEnv (some (Finmap.singleton "BUILDKITE_COMMAND" "echo hi"))).ValuesForFields
        referenceCodec "env::" ["command", "plugins"] = (some o, none) :=
  ⟨by decide,
    loop_swap referenceCodec "env::" _ "command" "plugins" (by decide) (by decide) [] ∅,
    ⟨_, rfl⟩⟩

/-- C6, at a concrete input: a namespaced field and `command`, in both orders. -/
theorem ValuesForFields_perm_witness :
    (jobWithEnv (some (Finmap.singleton "FOO" "bar"))).ValuesForFields
        referenceCodec "env::" ["env::FOO", "command"] =
      (jobWithEnv (some (Finmap.singleton "FOO" "bar"))).ValuesForFields
        referenceCodec "env::" ["command", "env::FOO"] :=
  (ValuesForFields_perm referenceCodec "env::"
    (jobWithEnv (some (Finmap.singleton "FOO" "bar")))
    ["command", "env::FOO"] ["env::FOO", "command"] (by decide)
    (List.Perm.swap _ _ _)).1

/-- C9, at a concrete input: `BUILDKITE_PLUGINS` set to `not json`, and
`plugins` requested after `command`. -/
theorem ValuesForFields_plugins_unmarshal_error_witness :
    (jobWithEnv (some (Finmap.singleton "BUILDKITE_PLUGINS" "not json"))).ValuesForFields
        referenceCodec "env::" ["command", "plugins"] =
      (none, some (.unmarshaling .invalid)) :=
  (ValuesForFields_plugins_unmarshal_error referenceCodec "env::"
    (jobWithEnv (some (Finmap.singleton "BUILDKITE_PLUGINS" "not json")))
    ["command"] [] .invalid (by decide) (by decide) (by rfl)).1

/-! ## Requests built by the client operations -/

section Requests

variable {S Ctx Header Req Resp E : Type} (c : Client Ctx Header Req Resp E)

/-- C7: for every job ID and every audience list with two or more elements,
`OidcToken` returns a nil token, a nil response and `ErrAudienceTooLong`, and
makes no call on the client: neither `newRequest` nor `doRequest`. -/
theorem OidcToken_audience_too_long (jobId : String) (audience : List String)
    (h : 2 ≤ audience.length) :
    c.OidcToken jobId audience =
      { token := none, resp := none, err := some .ErrAudienceTooLong, calls := [] } := by
  match audience, h with
  | _ :: _ :: _, _ => rfl

/-- C7, at a concrete input: two audiences. -/
theorem OidcToken_audience_too_long_witness :
    stubClient.OidcToken "job-1" ["sts.amazonaws.com", "vault"] =
      { token := none, resp := none, err := some .ErrAudienceTooLong, calls := [] } :=
  OidcToken_audience_too_long stubClient "job-1" ["sts.amazonaws.com", "vault"] (by decide)

/-- C8: for every job ID, the first call `OidcToken` makes is `newRequest` with
method `POST`, path `jobs/{id}/oidc/tokens` and, with zero audiences, the nil
request body `m`, with exactly one audience `a`, the body whose `Audience` is
`a`; the only other call is `doRequest` on the request `newRequest` returned. -/
theorem OidcToken_request (jobId a : String) :
    (c.OidcToken jobId []).calls =
      .newRequest none "POST" ("jobs/" ++ jobId ++ "/oidc/tokens") (.oidc none) [] ::
        (match c.newRequest none "POST" ("jobs/" ++ jobId ++ "/oidc/tokens") (.oidc none) [] with
         | .error _ => []
         | .ok req => [.doRequest req]) ∧
    (c.OidcToken jobId [a]).calls =
      .newRequest none "POST" ("jobs/" ++ jobId ++ "/oidc/tokens")
          (.oidc (some { Audience := a })) [] ::
        (match c.newRequest none "POST" ("jobs/" ++ jobId ++ "/oidc/tokens")
            (.oidc (some { Audience := a })) [] with
         | .error _ => []
         | .ok req => [.doRequest req]) := by
  constructor
  · simp only [Client.OidcToken]
    cases c.newRequest none "POST" ("jobs/" ++ jobId ++ "/oidc/tokens") (.oidc none) [] with
    | error err => rfl
    | ok req =>
      dsimp only
      rcases c.doRequest req ({ Token := "" } : OidcToken) with ⟨t, resp, _ | err⟩ <;> rfl
  · simp only [Client.OidcToken]
    cases c.newRequest none "POST" ("jobs/" ++ jobId ++ "/oidc/tokens")
        (.oidc (some { Audience := a })) [] with
    | error err => rfl
    | ok req =>
      dsimp only
      rcases c.doRequest req ({ Token := "" } : OidcToken) with ⟨t, resp, _ | err⟩ <;> rfl

/-- C8, at a concrete input: the calls made with no audience and with one. -/
theorem OidcToken_request_witness :
    (stubClient.OidcToken "job-1" []).calls =
      [.newRequest none "POST" "jobs/job-1/oidc/tokens" (.oidc none) [],
       .doRequest ("POST", "jobs/job-1/oidc/tokens", .oidc none)] ∧
    (stubClient.OidcToken "job-1" ["vault"]).calls =
      [.newRequest none "POST" "jobs/job-1/oidc/tokens"
         (.oidc (some { Audience := "vault" })) [],
       .doRequest ("POST", "jobs/job-1/oidc/tokens", .oidc (some { Audience := "vault" }))] :=
  OidcToken_request stubClient "job-1" "vault"

/-- C10: for every job, the first call of `StartJob` is `newRequest` with
method `PUT`, path `jobs/{id}/start` and the body holding `StartedAt` of the
job and nothing else; the first call of `FinishJob` is `newRequest` with
method `PUT`, path `jobs/{id}/finish` and the body holding `FinishedAt`,
`ExitStatus`, `Signal`, `SignalReason` and `ChunksFailedCount` of the job and
nothing else.  Neither the calls nor the results change when the job's token,
env, step, state or endpoint change, and the job is the same afterwards. -/
theorem StartJob_FinishJob_request (ctx : Ctx) (job : Job S) :
    (c.StartJob ctx job).calls.head? =
      some (.newRequest (some ctx) "PUT" ("jobs/" ++ job.ID ++ "/start")
        (.start { StartedAt := job.StartedAt }) []) ∧
    (c.FinishJob ctx job).calls.head? =
      some (.newRequest (some ctx) "PUT" ("jobs/" ++ job.ID ++ "/finish")
        (.finish { FinishedAt := job.FinishedAt, ExitStatus := job.ExitStatus,
                   Signal := job.Signal, SignalReason := job.SignalReason,
                   ChunksFailedCount := job.ChunksFailedCount }) []) ∧
    (c.StartJob ctx job).job = job ∧ (c.FinishJob ctx job).job = job ∧
    ∀ (token state endpoint : String) (env : Option StringMap) (step : S),
      (c.StartJob ctx { job with Token := token, Env := env, Step := step, State := state,
                                 Endpoint := endpoint }).calls = (c.StartJob ctx job).calls ∧
      (c.FinishJob ctx { job with Token := token, Env := env, Step := step, State := state,
                                  Endpoint := endpoint }).calls = (c.FinishJob ctx job).calls := by
  refine ⟨?_, ?_, ?_, ?_, ?_⟩
  · simp only [Client.StartJob]
    cases c.newRequest (some ctx) "PUT" ("jobs/" ++ job.ID ++ "/start")
      (.start { StartedAt := job.StartedAt }) [] <;> rfl
  · simp only [Client.FinishJob]
    cases c.newRequest (some ctx) "PUT" ("jobs/" ++ job.ID ++ "/finish")
      (.finish { FinishedAt := job.FinishedAt, ExitStatus := job.ExitStatus,
                 Signal := job.Signal, SignalReason := job.SignalReason,
                 ChunksFailedCount := job.ChunksFailedCount }) [] <;> rfl
  · simp only [Client.StartJob]
    cases c.newRequest (some ctx) "PUT" ("jobs/" ++ job.ID ++ "/start")
      (.start { StartedAt := job.StartedAt }) [] <;> rfl
  · simp only [Client.FinishJob]
    cases c.newRequest (some ctx) "PUT" ("jobs/" ++ job.ID ++ "/finish")
      (.finish { FinishedAt := job.FinishedAt, ExitStatus := job.ExitStatus,
                 Signal := job.Signal, SignalReason := job.SignalReason,
                 ChunksFailedCount := job.ChunksFailedCount }) [] <;> rfl
  · intro token state endpoint env step
    constructor
    · simp only [Client.StartJob]
      cases c.newRequest (some ctx) "PUT" ("jobs/" ++ job.ID ++ "/start")
        (.start { StartedAt := job.StartedAt }) [] <;> rfl
    · simp only [Client.FinishJob]
      cases c.newRequest (some ctx) "PUT" ("jobs/" ++ job.ID ++ "/finish")
        (.finish { FinishedAt := job.FinishedAt, ExitStatus := job.ExitStatus,
                   Signal := job.Signal, SignalReason := job.SignalReason,
                   ChunksFailedCount := job.ChunksFailedCount }) [] <;> rfl

end Requests

end Buildkite
